import Mathlib

/-!
Verification of the interference-visibility signal-processing pipeline of
`InterferenceVisibility/data_elab.py`: waveform segmentation, peak
selection, Gaussian-fit sub-windows, amplitude aggregation, the cos²
visibility-fit reporting in `main`, and the TEC settle-wait loop of
`set_and_wait`.

Modeling conventions: voltage samples and temperatures are rationals
(`ℚ`); a NaN mean is `Option.none`; the external nonlinear least-squares
solver `scipy.optimize.curve_fit` is abstracted as an oracle parameter
(its inputs — abscissae, ordinates and the initial guess — are built
exactly as the source builds them).
-/

namespace DataElab

/-- Embeds `chunk_array` (data_elab.py lines 23–24):
`[arr[i:i + size] for i in range(0, len(arr), size)]`, i.e. the first
`size` samples followed by the chunks of the remainder.  Python's
`range` with step `0` raises `ValueError`; the program validates
`sampling_period > 0` before calling, so the `size = 0` case is
unreachable and mapped to `[]`. -/
def chunk_array {α : Type} (arr : List α) (size : ℕ) : List (List α) :=
  match arr, size with
  | [], _ => []
  | _ :: _, 0 => []
  | a :: as, s + 1 => ((a :: as).take (s + 1)) :: chunk_array ((a :: as).drop (s + 1)) (s + 1)
termination_by arr.length
decreasing_by simp; omega

/-- Embeds line 47: `chunks = chunk_array(voltages, sampling_period)[1:]`;
the first chunk is discarded unconditionally. -/
def usableWindows (voltages : List ℚ) (samplingPeriod : ℕ) : List (List ℚ) :=
  (chunk_array voltages samplingPeriod).drop 1

/-- Fuelled inner loop of scipy's `_local_maxima_1d` (invoked by
`find_peaks(chunk)` at line 61): starting at `j`, advance while
`j < iMax` and `x[j] == v`, returning the first index past the plateau.
Each step increases `j`, so any `fuel ≥ iMax - j` computes the loop's
answer (see `findAhead_fuel`). -/
def findAhead (x : List ℚ) (iMax : ℕ) (v : ℚ) : ℕ → ℕ → ℕ
  | 0, j => j
  | fuel + 1, j => if j < iMax ∧ x.getD j 0 = v then findAhead x iMax v fuel (j + 1) else j

/-- Fuelled outer loop of scipy's `_local_maxima_1d`: scan `i` from 1 to
`iMax - 1` (`iMax = len(x) - 1`; boundary samples are never maxima); a
maximum needs a strictly smaller left neighbour, a plateau of equal
values, and a strictly smaller sample right after the plateau; its
recorded index is the plateau midpoint `(left + right) / 2`, and the
scan resumes after the plateau.  `i` strictly increases each step, so
any `fuel ≥ iMax - i` computes the loop's answer (see `lmGo_fuel`). -/
def lmGo (x : List ℚ) (iMax : ℕ) : ℕ → ℕ → List ℕ
  | 0, _ => []
  | fuel + 1, i =>
    if i < iMax then
      if x.getD (i - 1) 0 < x.getD i 0 then
        let iAhead := findAhead x iMax (x.getD i 0) iMax (i + 1)
        if x.getD iAhead 0 < x.getD i 0 then
          ((i + (iAhead - 1)) / 2) :: lmGo x iMax fuel (iAhead + 1)
        else lmGo x iMax fuel (i + 1)
      else lmGo x iMax fuel (i + 1)
    else []

/-- Embeds `find_peaks(chunk)[0]` (line 61) via scipy's
`_local_maxima_1d`: local maxima between the boundary samples, with
plateau handling; fuel `x.length` is sufficient since the scan index
starts at 1, strictly increases, and stops at `x.length - 1`. -/
def localMaxima (x : List ℚ) : List ℕ :=
  lmGo x (x.length - 1) x.length 1

/-- Python's `sorted(arr, key=lambda x: x[1], reverse=True)` (line 68)
orders candidate peaks by height, largest first, preserving the input
order of equal-height peaks (Python's sort is stable, as is
`List.insertionSort`). -/
def heightGe (a b : ℕ × ℚ) : Prop := b.2 ≤ a.2

instance : DecidableRel heightGe := fun a b => inferInstanceAs (Decidable (b.2 ≤ a.2))

instance : IsTotal (ℕ × ℚ) heightGe := ⟨fun a b => le_total b.2 a.2⟩

instance : IsTrans (ℕ × ℚ) heightGe := ⟨fun _ _ _ h1 h2 => le_trans h2 h1⟩

/-- Python's `sorted(top3_by_height, key=lambda x: x[0])` (line 81)
orders the three retained peaks by position (index ascending). -/
def posLe (a b : ℕ × ℚ) : Prop := a.1 ≤ b.1

instance : DecidableRel posLe := fun a b => inferInstanceAs (Decidable (a.1 ≤ b.1))

instance : IsTotal (ℕ × ℚ) posLe := ⟨fun a b => le_total a.1 b.1⟩

instance : IsTrans (ℕ × ℚ) posLe := ⟨fun _ _ _ h1 h2 => le_trans h1 h2⟩

/-- Embeds lines 65–67: `[[int(peaks[i]), float(heights_arr[i])] ...]`
with `heights_arr = chunk[peaks]`. -/
def candidates (chunk : List ℚ) : List (ℕ × ℚ) :=
  (localMaxima chunk).map (fun i => (i, chunk.getD i 0))

/-- Embeds line 68: the candidate list sorted by height, descending. -/
def sortedByHeight (chunk : List ℚ) : List (ℕ × ℚ) :=
  List.insertionSort heightGe (candidates chunk)

/-- Embeds line 80: `top3_by_height = arr[:3]`. -/
def top3 (chunk : List ℚ) : List (ℕ × ℚ) :=
  (sortedByHeight chunk).take 3

/-- Embeds the peak-selection policy of lines 61–82: no peaks → skip
(`continue`); fewer than three peaks → the first (highest) entry of the
height-sorted list; otherwise the middle-by-position of the top three
by height. -/
def selectPeakIdx (chunk : List ℚ) : Option ℕ :=
  if localMaxima chunk = [] then none
  else if (sortedByHeight chunk).length < 3 then some ((sortedByHeight chunk).headD (0, 0)).1
  else some ((List.insertionSort posLe (top3 chunk)).getD 1 (0, 0)).1

/-- Embeds lines 50–53: `delay_samples = int((delay * sampling_rate) // 2)`
clamped below by 1. -/
def delaySamples (delay rate : ℚ) : ℤ :=
  let ds : ℤ := ⌊delay * rate / 2⌋
  if ds < 1 then 1 else ds

/-- The outcome of one `scipy.optimize.curve_fit(gaussian, xs, ys, p0)`
call: `some (A, mu, sigma)` on convergence, `none` when the solver
raises.  The solver is external numerics and is abstracted. -/
def FitOracle : Type :=
  List ℚ → List ℚ → ℚ × ℚ × ℚ → Option (ℚ × ℚ × ℚ)

/-- Embeds line 90: `xs = np.arange(low, high, dtype=float)`. -/
def gaussXs (low high : ℤ) : List ℚ :=
  (List.range (high - low).toNat).map (fun j => ((low + (j : ℤ) : ℤ) : ℚ))

/-- Embeds line 91: `ys = chunk[low:high]` (with `0 ≤ low ≤ high ≤ len`). -/
def subSamples (chunk : List ℚ) (low high : ℤ) : List ℚ :=
  (chunk.drop low.toNat).take (high - low).toNat

/-- Embeds lines 94–97: initial guess `[max(ys), idx, max(1, (high-low)/6)]`. -/
def gaussP0 (ys : List ℚ) (idx : ℕ) (low high : ℤ) : ℚ × ℚ × ℚ :=
  ((ys.max?).getD 0, (idx : ℚ), max 1 (((high - low : ℤ) : ℚ) / 6))

/-- Embeds the per-window body of the loop at lines 55–118: empty chunk
or no peaks → skip; otherwise select a peak, build the sub-window
`[max(0, idx - delay_samples), min(len, idx + delay_samples))`, skip it
when it holds fewer than 3 samples, and otherwise hand `xs`, `ys` and
the initial guess to `curve_fit`; its amplitude `A` is the window's
contribution, and a solver failure skips the window. -/
def windowAmplitude (fit : FitOracle) (d : ℤ) (chunk : List ℚ) : Option ℚ :=
  if chunk.length = 0 then none
  else
    match selectPeakIdx chunk with
    | none => none
    | some idx =>
      let low : ℤ := max 0 ((idx : ℤ) - d)
      let high : ℤ := min (chunk.length : ℤ) ((idx : ℤ) + d)
      if high - low < 3 then none
      else
        (fit (gaussXs low high) (subSamples chunk low high)
          (gaussP0 (subSamples chunk low high) idx low high)).map (fun p => p.1)

/-- `np.mean` over a nonempty sample list. -/
def npMean (l : List ℚ) : ℚ := l.sum / l.length

/-- The square of `np.std(l)` (population statistics, `ddof = 0`):
`np.std` is the square root of this mean squared deviation. -/
def npVar (l : List ℚ) : ℚ :=
  ((l.map (fun x => (x - npMean l) ^ 2)).sum) / l.length

/-- Embeds lines 120–123: `(nan, nan)` for an empty amplitude list
(modeled as `none`), else `(np.mean(heights), np.std(heights))`; the
standard deviation is carried as its square `npVar` so the definition
stays within `ℚ` (`std = Real.sqrt npVar`). -/
def aggregateMeanVar (heights : List ℚ) : Option (ℚ × ℚ) :=
  if heights = [] then none else some (npMean heights, npVar heights)

/-- Embeds `interference_voltage_estimation` (lines 35–123) after the
trace read and settings lookup: segment the trace, drop the first
chunk, collect one amplitude per window that survives peak selection,
sub-window sizing and the Gaussian fit, and aggregate.  The
`sampling_period <= 0` `ValueError` (lines 44–45) precedes this and is
outside the model (`samplingPeriod ≥ 1` in every use). -/
def interference_voltage_estimation (fit : FitOracle) (voltages : List ℚ)
    (samplingPeriod : ℕ) (d : ℤ) : Option (ℚ × ℚ) :=
  aggregateMeanVar ((usableWindows voltages samplingPeriod).filterMap (windowAmplitude fit d))

/-- Embeds `set_and_wait` (lines 126–135) as a fuelled state machine over
an abstract stream of polled temperatures `f`: each step reads `f n`;
an in-tolerance reading increments the debounce counter, an
out-of-tolerance reading resets it to 0 (the inner `while`), and the
loop returns — yielding the number of reads consumed — once the counter
reaches 3.  `none` means the loop is still running after `fuel` reads;
the source loop has no timeout, so no fuel bound is part of the code. -/
def settleRun (f : ℕ → ℚ) (e tol : ℚ) : ℕ → ℕ → ℕ → Option ℕ
  | 0, _, _ => none
  | fuel + 1, count, n =>
    if 3 ≤ count then some n
    else if |f n - e| ≤ tol then settleRun f e tol fuel (count + 1) (n + 1)
    else settleRun f e tol fuel 0 (n + 1)

/-- Embeds line 222: `visibility = B / (2 * A + B) if (2 * A + B) != 0
else float("nan")`, with NaN as `none`. -/
def visibilityOf (A B : ℚ) : Option ℚ :=
  if 2 * A + B ≠ 0 then some (B / (2 * A + B)) else none

/-- What the sweep-level reporting code of `main` (lines 205–228)
produces: whether the `except` branch printed the failure message,
the fitted visibility if printed (`some none` = printed NaN), and
the raw visibility if printed. -/
structure SweepOutput where
  failureMessage : Bool
  fittedVisibility : Option (Option ℚ)
  rawVisibility : Option ℚ
deriving DecidableEq

/-- Embeds the `try`/`except` block of `main` (lines 205–228), with the
`curve_fit` outcome abstracted: on solver failure the `except` branch
prints the message and nothing else; on success the fitted visibility
is printed, then `M, m = max(means), min(means)` and
`raw = (M - m) / (M + m)` — `max`/`min` of an empty list raise, and a
zero denominator raises `ZeroDivisionError`, both caught by the same
`except` after the fitted visibility was already printed. -/
def cos2Report (fitResult : Option (ℚ × ℚ × ℚ × ℚ)) (means : List ℚ) : SweepOutput :=
  match fitResult with
  | none => ⟨true, none, none⟩
  | some (A, B, _, _) =>
    let vis := visibilityOf A B
    match means.max?, means.min? with
    | some M, some m =>
      if M + m = 0 then ⟨true, some vis, none⟩
      else ⟨false, some vis, some ((M - m) / (M + m))⟩
    | _, _ => ⟨true, some vis, none⟩

/-- The mean series handed to `curve_fit` in `main` (lines 188–213):
the loaded record's means are passed unchanged — despite the comment
"skip any NaN measurements" at line 187, no NaN filtering happens
between the load and the fit.  NaN is modeled as `none`. -/
def fitMeansInput (means : List (Option ℚ)) : List (Option ℚ) := means

/-- Modelled from the spec: "Excludes NaN-mean points before fitting" —
the mean series the Visibility Fitter is specified to pass to the fit,
with NaN-mean entries removed. -/
def specFitMeansInput (means : List (Option ℚ)) : List (Option ℚ) :=
  means.filter (fun x => x.isSome)

/-- The synthetic window of spec §8: samples are zero except for peaks
at positions 5, 50 and 95 with heights 3, 9 and 1; length 97 so that
position 95 is interior. -/
def exampleWindow : List ℚ :=
  List.replicate 5 0 ++ [3] ++ List.replicate 44 0 ++ [9] ++ List.replicate 44 0 ++ [1, 0]

/-- A concrete fit-oracle outcome used by witnesses: the solver is taken
to converge to amplitude 7, center 0, width 1 on every input. -/
def constOracle : FitOracle := fun _ _ _ => some (7, 0, 1)

theorem chunk_array_nil {α : Type} (size : ℕ) : chunk_array ([] : List α) size = [] := by
  rw [chunk_array]

theorem chunk_array_cons {α : Type} {arr : List α} (h : arr ≠ []) {s : ℕ} (hs : 1 ≤ s) :
    chunk_array arr s = arr.take s :: chunk_array (arr.drop s) s := by
  match arr, s with
  | [], _ => exact absurd rfl h
  | a :: as, 0 => exact absurd hs (by omega)
  | a :: as, s + 1 => rw [chunk_array]

/-- Concatenating the chunks recovers the input list. -/
theorem chunk_array_join {α : Type} :
    ∀ (n : ℕ) (arr : List α), arr.length ≤ n → ∀ s : ℕ, 1 ≤ s →
      (chunk_array arr s).flatten = arr := by
  intro n
  induction n with
  | zero =>
    intro arr h s hs
    have : arr = [] := List.eq_nil_of_length_eq_zero (Nat.le_zero.mp h)
    subst this
    simp [chunk_array_nil]
  | succ n ih =>
    intro arr h s hs
    rcases arr with _ | ⟨a, as⟩
    · simp [chunk_array_nil]
    · rw [chunk_array_cons (by simp) hs]
      have hlt : ((a :: as).drop s).length ≤ n := by
        simp only [List.length_drop, List.length_cons] at *
        omega
      rw [List.flatten, ih _ hlt s hs, List.take_append_drop]

/-- Every chunk except possibly the last has exactly `size` elements. -/
theorem chunk_array_dropLast_length {α : Type} :
    ∀ (n : ℕ) (arr : List α), arr.length ≤ n → ∀ s : ℕ, 1 ≤ s →
      ∀ c ∈ (chunk_array arr s).dropLast, c.length = s := by
  intro n
  induction n with
  | zero =>
    intro arr h s hs c hc
    have : arr = [] := List.eq_nil_of_length_eq_zero (Nat.le_zero.mp h)
    subst this
    simp [chunk_array_nil] at hc
  | succ n ih =>
    intro arr h s hs c hc
    rcases arr with _ | ⟨a, as⟩
    · simp [chunk_array_nil] at hc
    · rw [chunk_array_cons (by simp) hs] at hc
      rcases hrest : chunk_array ((a :: as).drop s) s with _ | ⟨r, rs⟩
      · rw [hrest] at hc
        simp at hc
      · rw [hrest] at hc
        rw [List.dropLast_cons₂] at hc
        have hlt : ((a :: as).drop s).length ≤ n := by
          simp only [List.length_drop, List.length_cons] at *
          omega
        rcases List.mem_cons.mp hc with hc | hc
        · subst hc
          have hne : (a :: as).drop s ≠ [] := by
            intro hnil
            rw [hnil, chunk_array_nil] at hrest
            exact List.noConfusion hrest
          have hlen : s < (a :: as).length := by
            by_contra hle
            push_neg at hle
            exact hne (List.drop_eq_nil_of_le hle)
          rw [List.length_take, Nat.min_eq_left (by omega)]
        · exact ih _ hlt s hs c (by rw [hrest]; exact hc)

/-- For a non-empty input the last chunk has between 1 and `size` elements. -/
theorem chunk_array_getLast {α : Type} :
    ∀ (n : ℕ) (arr : List α), arr.length ≤ n → ∀ s : ℕ, 1 ≤ s → arr ≠ [] →
      ∃ c, (chunk_array arr s).getLast? = some c ∧ 1 ≤ c.length ∧ c.length ≤ s := by
  intro n
  induction n with
  | zero =>
    intro arr h s hs hne
    exact absurd (List.eq_nil_of_length_eq_zero (Nat.le_zero.mp h)) hne
  | succ n ih =>
    intro arr h s hs hne
    rw [chunk_array_cons hne hs]
    rcases hrest : chunk_array (arr.drop s) s with _ | ⟨r, rs⟩
    · refine ⟨arr.take s, by simp, ?_, ?_⟩
      · have : arr.length ≠ 0 := fun h0 => hne (List.eq_nil_of_length_eq_zero h0)
        simp [List.length_take]
        omega
      · simp [List.length_take]
    · have hdne : arr.drop s ≠ [] := by
        intro hnil
        rw [hnil, chunk_array_nil] at hrest
        exact List.noConfusion hrest
      have hlt : (arr.drop s).length ≤ n := by
        rcases arr with _ | ⟨a, as⟩
        · exact absurd rfl hne
        · simp only [List.length_drop, List.length_cons] at *
          omega
      obtain ⟨c, hc, h1, h2⟩ := ih _ hlt s hs hdne
      rw [hrest] at hc
      exact ⟨c, by rw [List.getLast?_cons_cons]; exact hc, h1, h2⟩

/-- Claim C10: `chunk_array` with positive size partitions its input
without loss or duplication: the chunks concatenate back to the input,
every chunk except possibly the last has exactly `size` elements, and
for a non-empty input the last chunk has between 1 and `size`
elements. -/
theorem C10_chunk_array_partition (arr : List ℚ) (size : ℕ) (hs : 1 ≤ size) :
    (chunk_array arr size).flatten = arr ∧
    (∀ c ∈ (chunk_array arr size).dropLast, c.length = size) ∧
    (arr ≠ [] →
      ∃ c, (chunk_array arr size).getLast? = some c ∧ 1 ≤ c.length ∧ c.length ≤ size) :=
  ⟨chunk_array_join arr.length arr le_rfl size hs,
   chunk_array_dropLast_length arr.length arr le_rfl size hs,
   chunk_array_getLast arr.length arr le_rfl size hs⟩

theorem C10_witness :
    (1 ≤ 2) ∧
    ((chunk_array [1, 2, 3, 4, 5] 2).flatten = ([1, 2, 3, 4, 5] : List ℚ) ∧
     (∀ c ∈ (chunk_array ([1, 2, 3, 4, 5] : List ℚ) 2).dropLast, c.length = 2) ∧
     (([1, 2, 3, 4, 5] : List ℚ) ≠ [] →
       ∃ c, (chunk_array ([1, 2, 3, 4, 5] : List ℚ) 2).getLast? = some c ∧
         1 ≤ c.length ∧ c.length ≤ 2)) :=
  ⟨by decide, C10_chunk_array_partition [1, 2, 3, 4, 5] 2 (by decide)⟩

/-- Claim C4: the Segmenter splits the raw trace into consecutive chunks
of length `period_samples` and always drops the first chunk regardless
of content (the usable windows are exactly the chunks of the trace with
its first `period_samples` samples removed); in particular any trace of
length `5*period + period/2 = 550` with `period = 100` produces 6
chunks, of which 5 usable windows remain after the drop, with window
lengths `[100, 100, 100, 100, 50]`. -/
theorem C4_segmenter_drops_first_chunk :
    (∀ (v : List ℚ) (p : ℕ), 1 ≤ p → usableWindows v p = chunk_array (v.drop p) p) ∧
    (∀ v : List ℚ, v.length = 550 →
      (chunk_array v 100).length = 6 ∧
      (usableWindows v 100).length = 5 ∧
      (usableWindows v 100).map List.length = [100, 100, 100, 100, 50]) := by
  constructor
  · intro v p hp
    rcases v with _ | ⟨a, as⟩
    · simp [usableWindows, chunk_array_nil]
    · rw [usableWindows, chunk_array_cons (by simp) hp]
      simp
  · intro v hv
    have h0 : v ≠ [] := by
      intro h
      rw [h] at hv
      simp at hv
    have e1 : (v.drop 100).length = 450 := by simp [hv]
    have e2 : ((v.drop 100).drop 100).length = 350 := by simp [hv]
    have e3 : (((v.drop 100).drop 100).drop 100).length = 250 := by simp [hv]
    have e4 : ((((v.drop 100).drop 100).drop 100).drop 100).length = 150 := by simp [hv]
    have e5 : (((((v.drop 100).drop 100).drop 100).drop 100).drop 100).length = 50 := by
      simp [hv]
    have ne1 : v.drop 100 ≠ [] := by
      intro h; rw [h] at e1; simp at e1
    have ne2 : (v.drop 100).drop 100 ≠ [] := by
      intro h; rw [h] at e2; simp at e2
    have ne3 : ((v.drop 100).drop 100).drop 100 ≠ [] := by
      intro h; rw [h] at e3; simp at e3
    have ne4 : (((v.drop 100).drop 100).drop 100).drop 100 ≠ [] := by
      intro h; rw [h] at e4; simp at e4
    have ne5 : ((((v.drop 100).drop 100).drop 100).drop 100).drop 100 ≠ [] := by
      intro h; rw [h] at e5; simp at e5
    have hnil : (((((v.drop 100).drop 100).drop 100).drop 100).drop 100).drop 100 = [] :=
      List.drop_eq_nil_of_le (by rw [e5]; omega)
    have hexp : chunk_array v 100 =
        [v.take 100, (v.drop 100).take 100, ((v.drop 100).drop 100).take 100,
         (((v.drop 100).drop 100).drop 100).take 100,
         ((((v.drop 100).drop 100).drop 100).drop 100).take 100,
         (((((v.drop 100).drop 100).drop 100).drop 100).drop 100).take 100] := by
      rw [chunk_array_cons h0 (by omega), chunk_array_cons ne1 (by omega),
        chunk_array_cons ne2 (by omega), chunk_array_cons ne3 (by omega),
        chunk_array_cons ne4 (by omega), chunk_array_cons ne5 (by omega),
        hnil, chunk_array_nil]
    refine ⟨by rw [hexp]; rfl, by rw [usableWindows, hexp]; rfl, ?_⟩
    rw [usableWindows, hexp]
    simp only [List.drop, List.map, List.length_take]
    rw [e1, e2, e3, e4, e5]
    norm_num

theorem C4_witness :
    ((1 : ℕ) ≤ 100 ∧
      usableWindows (List.replicate 550 (0 : ℚ)) 100 =
        chunk_array ((List.replicate 550 (0 : ℚ)).drop 100) 100) ∧
    ((List.replicate 550 (0 : ℚ)).length = 550 ∧
      (chunk_array (List.replicate 550 (0 : ℚ)) 100).length = 6 ∧
      (usableWindows (List.replicate 550 (0 : ℚ)) 100).length = 5 ∧
      (usableWindows (List.replicate 550 (0 : ℚ)) 100).map List.length =
        [100, 100, 100, 100, 50]) :=
  ⟨⟨by decide, C4_segmenter_drops_first_chunk.1 (List.replicate 550 (0 : ℚ)) 100 (by decide)⟩,
   ⟨by rw [List.length_replicate],
    C4_segmenter_drops_first_chunk.2 (List.replicate 550 (0 : ℚ))
      (by rw [List.length_replicate])⟩⟩

theorem findAhead_ge (x : List ℚ) (iMax : ℕ) (v : ℚ) :
    ∀ (fuel j : ℕ), j ≤ findAhead x iMax v fuel j := by
  intro fuel
  induction fuel with
  | zero => intro j; exact le_rfl
  | succ fuel ih =>
    intro j
    rw [findAhead]
    split
    · exact le_trans (by omega) (ih (j + 1))
    · exact le_rfl

/-- The fuel does not matter once it covers the remaining distance to
`iMax`: the fuelled plateau scan agrees with the unbounded `while`
loop. -/
theorem findAhead_fuel (x : List ℚ) (iMax : ℕ) (v : ℚ) :
    ∀ (f₁ f₂ j : ℕ), iMax - j ≤ f₁ → iMax - j ≤ f₂ →
      findAhead x iMax v f₁ j = findAhead x iMax v f₂ j := by
  intro f₁
  induction f₁ with
  | zero =>
    intro f₂ j h1 h2
    have hj : ¬ j < iMax := by omega
    cases f₂ with
    | zero => rfl
    | succ f₂ =>
      rw [findAhead, findAhead, if_neg (by intro h; exact hj h.1)]
  | succ f₁ ih =>
    intro f₂ j h1 h2
    cases f₂ with
    | zero =>
      have hj : ¬ j < iMax := by omega
      rw [findAhead, findAhead, if_neg (by intro h; exact hj h.1)]
    | succ f₂ =>
      rw [findAhead, findAhead]
      split
      · rename_i h
        exact ih f₂ (j + 1) (by omega) (by omega)
      · rfl

theorem lmGo_exhausted (x : List ℚ) (iMax : ℕ) {i : ℕ} (h : ¬ i < iMax) :
    ∀ fuel, lmGo x iMax fuel i = [] := by
  intro fuel
  cases fuel with
  | zero => rfl
  | succ fuel => rw [lmGo, if_neg h]

/-- The fuel does not matter once it covers the remaining distance to
`iMax`: the fuelled scan agrees with the unbounded `while` loop. -/
theorem lmGo_fuel (x : List ℚ) (iMax : ℕ) :
    ∀ (f₁ f₂ i : ℕ), iMax - i ≤ f₁ → iMax - i ≤ f₂ →
      lmGo x iMax f₁ i = lmGo x iMax f₂ i := by
  intro f₁
  induction f₁ with
  | zero =>
    intro f₂ i h1 h2
    have hi : ¬ i < iMax := by omega
    rw [lmGo_exhausted x iMax hi, lmGo_exhausted x iMax hi]
  | succ f₁ ih =>
    intro f₂ i h1 h2
    by_cases hi : i < iMax
    · cases f₂ with
      | zero => omega
      | succ f₂ =>
        rw [lmGo, lmGo, if_pos hi, if_pos hi]
        by_cases hrise : x.getD (i - 1) 0 < x.getD i 0
        · rw [if_pos hrise, if_pos hrise]
          have hahead : i + 1 ≤ findAhead x iMax (x.getD i 0) iMax (i + 1) :=
            findAhead_ge x iMax _ iMax (i + 1)
          by_cases hfall :
              x.getD (findAhead x iMax (x.getD i 0) iMax (i + 1)) 0 < x.getD i 0
          · rw [if_pos hfall, if_pos hfall]
            rw [ih f₂ _ (by omega) (by omega)]
          · rw [if_neg hfall, if_neg hfall]
            exact ih f₂ (i + 1) (by omega) (by omega)
        · rw [if_neg hrise, if_neg hrise]
          exact ih f₂ (i + 1) (by omega) (by omega)
    · rw [lmGo_exhausted x iMax hi, lmGo_exhausted x iMax hi]

theorem sortedByHeight_perm (chunk : List ℚ) :
    (sortedByHeight chunk).Perm (candidates chunk) :=
  List.perm_insertionSort heightGe (candidates chunk)

theorem sortedByHeight_length (chunk : List ℚ) :
    (sortedByHeight chunk).length = (localMaxima chunk).length := by
  rw [(sortedByHeight_perm chunk).length_eq, candidates, List.length_map]

/-- Claim C3: for every window with at least 3 detected local maxima,
the selected index comes from the top-3-by-height candidate set
(`top3`, whose members are candidates and whose heights dominate every
other candidate's), and it is the positional median of those three: the
middle element of a position-sorted permutation of `top3`. -/
theorem C3_top3_positional_median (chunk : List ℚ)
    (h3 : 3 ≤ (localMaxima chunk).length) :
    ∃ i, selectPeakIdx chunk = some i ∧
      (∀ a ∈ top3 chunk, a ∈ candidates chunk) ∧
      i ∈ (top3 chunk).map Prod.fst ∧
      (∀ a ∈ top3 chunk, ∀ b ∈ (sortedByHeight chunk).drop 3, b.2 ≤ a.2) ∧
      (∃ l : List (ℕ × ℚ), l.Perm (top3 chunk) ∧ l.Sorted posLe ∧ (l.getD 1 (0, 0)).1 = i) := by
  have hne : ¬ localMaxima chunk = [] := by
    intro h
    rw [h] at h3
    simp at h3
  have hnlt : ¬ (sortedByHeight chunk).length < 3 := by
    rw [sortedByHeight_length]
    omega
  have hsel : selectPeakIdx chunk =
      some ((List.insertionSort posLe (top3 chunk)).getD 1 (0, 0)).1 := by
    rw [selectPeakIdx, if_neg hne, if_neg hnlt]
  have hp3 : (List.insertionSort posLe (top3 chunk)).Perm (top3 chunk) :=
    List.perm_insertionSort posLe (top3 chunk)
  have hlen3 : (List.insertionSort posLe (top3 chunk)).length = 3 := by
    rw [hp3.length_eq, top3, List.length_take]
    rw [sortedByHeight_length]
    omega
  refine ⟨_, hsel, ?_, ?_, ?_,
    ⟨List.insertionSort posLe (top3 chunk), hp3, List.sorted_insertionSort posLe _, rfl⟩⟩
  · intro a ha
    rw [top3] at ha
    exact (sortedByHeight_perm chunk).subset (List.mem_of_mem_take ha)
  · have h1 : 1 < (List.insertionSort posLe (top3 chunk)).length := by omega
    have hmem : (List.insertionSort posLe (top3 chunk)).getD 1 (0, 0) ∈
        List.insertionSort posLe (top3 chunk) := by
      rw [List.getD_eq_getElem?_getD, List.getElem?_eq_getElem h1]
      exact List.getElem_mem h1
    exact List.mem_map_of_mem Prod.fst (hp3.subset hmem)
  · intro a ha b hb
    have hsor : List.Sorted heightGe
        ((sortedByHeight chunk).take 3 ++ (sortedByHeight chunk).drop 3) := by
      rw [List.take_append_drop]
      exact List.sorted_insertionSort heightGe (candidates chunk)
    have hpair := (List.pairwise_append.mp hsor).2.2
    rw [top3] at ha
    exact hpair a ha b hb

theorem C3_witness :
    3 ≤ (localMaxima exampleWindow).length ∧
    selectPeakIdx exampleWindow = some 50 ∧
    (∃ i, selectPeakIdx exampleWindow = some i ∧
      (∀ a ∈ top3 exampleWindow, a ∈ candidates exampleWindow) ∧
      i ∈ (top3 exampleWindow).map Prod.fst ∧
      (∀ a ∈ top3 exampleWindow, ∀ b ∈ (sortedByHeight exampleWindow).drop 3, b.2 ≤ a.2) ∧
      (∃ l : List (ℕ × ℚ), l.Perm (top3 exampleWindow) ∧ l.Sorted posLe ∧ (l.getD 1 (0, 0)).1 = i)) :=
  ⟨by decide, by decide, C3_top3_positional_median exampleWindow (by decide)⟩

/-- Claim C7: a window with zero detected local maxima is skipped (no
selection, no amplitude contribution), and a window with one or two
detected local maxima selects a peak of greatest height. -/
theorem C7_few_peaks_policy :
    (∀ chunk : List ℚ, localMaxima chunk = [] →
      selectPeakIdx chunk = none ∧
        ∀ (fit : FitOracle) (d : ℤ), windowAmplitude fit d chunk = none) ∧
    (∀ chunk : List ℚ,
      (localMaxima chunk).length = 1 ∨ (localMaxima chunk).length = 2 →
      ∃ i, selectPeakIdx chunk = some i ∧ i ∈ localMaxima chunk ∧
        ∀ j ∈ localMaxima chunk, chunk.getD j 0 ≤ chunk.getD i 0) := by
  constructor
  · intro chunk h
    have hsel : selectPeakIdx chunk = none := by
      rw [selectPeakIdx, if_pos h]
    exact ⟨hsel, fun fit d => by simp [windowAmplitude, hsel]⟩
  · intro chunk hlen12
    have hne : ¬ localMaxima chunk = [] := by
      rcases hlen12 with h | h <;>
        · intro hnil
          rw [hnil] at h
          simp at h
    have hslen : (sortedByHeight chunk).length < 3 := by
      rw [sortedByHeight_length]
      rcases hlen12 with h | h <;> omega
    have hsel : selectPeakIdx chunk = some ((sortedByHeight chunk).headD (0, 0)).1 := by
      rw [selectPeakIdx, if_neg hne, if_pos hslen]
    have hsne : sortedByHeight chunk ≠ [] := by
      intro hnil
      have := sortedByHeight_length chunk
      rw [hnil] at this
      rcases hlen12 with h | h <;> (rw [h] at this; simp at this)
    rcases hhead : sortedByHeight chunk with _ | ⟨a, t⟩
    · exact absurd hhead hsne
    have hamem : a ∈ candidates chunk :=
      (sortedByHeight_perm chunk).subset (by rw [hhead]; exact List.mem_cons_self a t)
    have hmax : ∀ x ∈ candidates chunk, x.2 ≤ a.2 := by
      intro x hx
      have hx2 : x ∈ sortedByHeight chunk := (sortedByHeight_perm chunk).mem_iff.mpr hx
      rw [hhead] at hx2
      rcases List.mem_cons.mp hx2 with hx2 | hx2
      · rw [hx2]
      · have hsor : List.Sorted heightGe (a :: t) := by
          rw [← hhead]
          exact List.sorted_insertionSort heightGe (candidates chunk)
        exact (List.sorted_cons.mp hsor).1 x hx2
    obtain ⟨j, hj, hja⟩ := List.mem_map.mp hamem
    refine ⟨a.1, by rw [hsel, hhead]; rfl, ?_, ?_⟩
    · rw [← hja]
      exact hj
    · intro j' hj'
      have hj'm : (j', chunk.getD j' 0) ∈ candidates chunk :=
        List.mem_map_of_mem _ hj'
      have := hmax _ hj'm
      have ha2 : a.2 = chunk.getD a.1 0 := by
        rw [← hja]
      rw [ha2] at this
      exact this

theorem C7_witness :
    (localMaxima ([0, 0, 0] : List ℚ) = [] ∧
      (selectPeakIdx ([0, 0, 0] : List ℚ) = none ∧
        ∀ (fit : FitOracle) (d : ℤ), windowAmplitude fit d ([0, 0, 0] : List ℚ) = none)) ∧
    (((localMaxima ([0, 5, 0, 2, 0] : List ℚ)).length = 1 ∨
        (localMaxima ([0, 5, 0, 2, 0] : List ℚ)).length = 2) ∧
      (∃ i, selectPeakIdx ([0, 5, 0, 2, 0] : List ℚ) = some i ∧
        i ∈ localMaxima ([0, 5, 0, 2, 0] : List ℚ) ∧
        ∀ j ∈ localMaxima ([0, 5, 0, 2, 0] : List ℚ),
          ([0, 5, 0, 2, 0] : List ℚ).getD j 0 ≤ ([0, 5, 0, 2, 0] : List ℚ).getD i 0)) :=
  ⟨⟨by decide, C7_few_peaks_policy.1 [0, 0, 0] (by decide)⟩,
   ⟨by decide, C7_few_peaks_policy.2 [0, 5, 0, 2, 0] (by decide)⟩⟩

theorem selectPeakIdx_nil : selectPeakIdx ([] : List ℚ) = none := by decide

/-- Claim C5: the code's half-window radius equals
`max(1, floor(delay_seconds * sampling_rate / 2))`, and for a window
with selected index `idx` the Gaussian-fit sub-window is
`[max(0, idx - d), min(len, idx + d))`: when it has fewer than 3
samples the window contributes no amplitude, and otherwise the fit is
invoked exactly on the abscissae and samples of that sub-window. -/
theorem C5_gaussian_subwindow :
    (∀ delay rate : ℚ, delaySamples delay rate = max 1 ⌊delay * rate / 2⌋) ∧
    (∀ (fit : FitOracle) (d : ℤ) (chunk : List ℚ) (idx : ℕ),
      selectPeakIdx chunk = some idx →
      ((min (chunk.length : ℤ) ((idx : ℤ) + d) - max 0 ((idx : ℤ) - d) < 3 →
          windowAmplitude fit d chunk = none) ∧
       (3 ≤ min (chunk.length : ℤ) ((idx : ℤ) + d) - max 0 ((idx : ℤ) - d) →
          windowAmplitude fit d chunk =
            (fit (gaussXs (max 0 ((idx : ℤ) - d)) (min (chunk.length : ℤ) ((idx : ℤ) + d)))
                 (subSamples chunk (max 0 ((idx : ℤ) - d))
                   (min (chunk.length : ℤ) ((idx : ℤ) + d)))
                 (gaussP0
                   (subSamples chunk (max 0 ((idx : ℤ) - d))
                     (min (chunk.length : ℤ) ((idx : ℤ) + d)))
                   idx (max 0 ((idx : ℤ) - d))
                   (min (chunk.length : ℤ) ((idx : ℤ) + d)))).map (fun p => p.1)))) := by
  constructor
  · intro delay rate
    rw [delaySamples]
    rcases le_or_lt 1 ⌊delay * rate / 2⌋ with h | h
    · rw [if_neg (by omega), max_eq_right h]
    · rw [if_pos h, max_eq_left (by omega)]
  · intro fit d chunk idx hsel
    have hne0 : ¬ chunk.length = 0 := by
      intro h0
      rw [List.eq_nil_of_length_eq_zero h0, selectPeakIdx_nil] at hsel
      exact Option.noConfusion hsel
    constructor
    · intro hlt
      simp only [windowAmplitude, hsel, if_neg hne0]
      rw [if_pos hlt]
    · intro hge
      simp only [windowAmplitude, hsel, if_neg hne0]
      rw [if_neg (by omega)]

theorem C5_witness :
    delaySamples (1 / 2) 4 = max 1 ⌊(1 / 2 : ℚ) * 4 / 2⌋ ∧
    selectPeakIdx ([0, 5, 0, 2, 0] : List ℚ) = some 1 ∧
    windowAmplitude constOracle 1 ([0, 5, 0, 2, 0] : List ℚ) = none ∧
    windowAmplitude constOracle 2 ([0, 5, 0, 2, 0] : List ℚ) = some 7 := by
  refine ⟨C5_gaussian_subwindow.1 (1 / 2) 4, by decide, ?_, ?_⟩
  · exact (C5_gaussian_subwindow.2 constOracle 1 [0, 5, 0, 2, 0] 1 (by decide)).1 (by decide)
  · rw [(C5_gaussian_subwindow.2 constOracle 2 [0, 5, 0, 2, 0] 1 (by decide)).2 (by decide)]
    decide

/-- Claim C6: the Amplitude Aggregator maps an empty amplitude sequence
to NaN/NaN (`none`) and a non-empty one to its population (`ddof = 0`)
mean and standard deviation (carried as mean and squared deviation: the
mean times the count is the sum, and the variance times the count is
the summed squared deviation, which is nonnegative so its square root —
the standard deviation — is defined); in particular `[1, 3]` yields
mean 2 and variance 1, hence standard deviation `√1 = 1`. -/
theorem C6_aggregator :
    aggregateMeanVar ([] : List ℚ) = none ∧
    (∀ l : List ℚ, l ≠ [] → ∃ m v, aggregateMeanVar l = some (m, v) ∧
      m * l.length = l.sum ∧
      v * l.length = ((l.map (fun x => (x - m) ^ 2)).sum) ∧ 0 ≤ v) ∧
    (aggregateMeanVar [1, 3] = some (2, 1) ∧ Real.sqrt ((1 : ℚ) : ℝ) = 1) := by
  refine ⟨rfl, ?_, by simp [aggregateMeanVar, npMean, npVar]; norm_num, by norm_num⟩
  intro l hl
  have hlen : (l.length : ℚ) ≠ 0 := by
    have : l.length ≠ 0 := fun h => hl (List.eq_nil_of_length_eq_zero h)
    exact_mod_cast this
  have hsq : 0 ≤ (l.map (fun x => (x - npMean l) ^ 2)).sum := by
    apply List.sum_nonneg
    intro x hx
    obtain ⟨y, _, rfl⟩ := List.mem_map.mp hx
    exact sq_nonneg _
  refine ⟨npMean l, npVar l, by rw [aggregateMeanVar, if_neg hl], ?_, ?_, ?_⟩
  · rw [npMean]
    exact div_mul_cancel₀ _ hlen
  · rw [npVar]
    exact div_mul_cancel₀ _ hlen
  · rw [npVar]
    exact div_nonneg hsq (by positivity)

theorem C6_witness :
    ([1, 3] : List ℚ) ≠ [] ∧
    (∃ m v, aggregateMeanVar [1, 3] = some (m, v) ∧
      m * (([1, 3] : List ℚ).length) = ([1, 3] : List ℚ).sum ∧
      v * (([1, 3] : List ℚ).length) =
        ((([1, 3] : List ℚ).map (fun x => (x - m) ^ 2)).sum) ∧ 0 ≤ v) :=
  ⟨by decide, C6_aggregator.2.1 [1, 3] (by decide)⟩

/-- Claim C8: the derived visibility is `B / (2A + B)` when the
denominator is nonzero (characterised multiplicatively:
`v * (2A + B) = B`), and NaN (`none`) when `2A + B = 0`. -/
theorem C8_visibility_formula (A B : ℚ) :
    (2 * A + B = 0 → visibilityOf A B = none) ∧
    (2 * A + B ≠ 0 → ∃ v, visibilityOf A B = some v ∧ v * (2 * A + B) = B) := by
  constructor
  · intro h
    rw [visibilityOf, if_neg (not_not.mpr h)]
  · intro h
    exact ⟨B / (2 * A + B), by rw [visibilityOf, if_pos h], div_mul_cancel₀ B h⟩

theorem C8_witness :
    (2 * 1 + 4 : ℚ) ≠ 0 ∧
    (∃ v, visibilityOf 1 4 = some v ∧ v * (2 * 1 + 4) = 4) :=
  ⟨by norm_num, (C8_visibility_formula 1 4).2 (by norm_num)⟩

/-- If the settle loop returns having consumed `m` reads, then — given
that the debounce counter `c` counts exactly the trailing in-tolerance
reads — at least 3 reads happened and the last 3 were in tolerance. -/
theorem settleRun_returns (f : ℕ → ℚ) (e tol : ℚ) :
    ∀ (fuel c n m : ℕ), c ≤ 3 → c ≤ n →
      (∀ j < c, |f (n - c + j) - e| ≤ tol) →
      settleRun f e tol fuel c n = some m →
      3 ≤ m ∧ ∀ j < 3, |f (m - 3 + j) - e| ≤ tol := by
  intro fuel
  induction fuel with
  | zero =>
    intro c n m _ _ _ h
    exact Option.noConfusion h
  | succ fuel ih =>
    intro c n m hc hcn hist hrun
    rw [settleRun] at hrun
    by_cases h3 : 3 ≤ c
    · rw [if_pos h3] at hrun
      obtain rfl : n = m := by injection hrun
      have hc3 : c = 3 := by omega
      subst hc3
      exact ⟨by omega, hist⟩
    · rw [if_neg h3] at hrun
      by_cases htol : |f n - e| ≤ tol
      · rw [if_pos htol] at hrun
        refine ih (c + 1) (n + 1) m (by omega) (by omega) ?_ hrun
        intro j hj
        rcases Nat.lt_succ_iff_lt_or_eq.mp hj with hj | hj
        · have harith : n + 1 - (c + 1) + j = n - c + j := by omega
          rw [harith]
          exact hist j hj
        · have harith : n + 1 - (c + 1) + j = n := by omega
          rw [harith]
          exact htol
      · rw [if_neg htol] at hrun
        exact ih 0 (n + 1) m (by omega) (by omega)
          (fun j hj => absurd hj (Nat.not_lt_zero j)) hrun

/-- If no 3 consecutive reads are ever in tolerance, the loop never
returns, whatever the fuel: the counter — again counting the trailing
in-tolerance reads — can never pass 2. -/
theorem settleRun_diverges (f : ℕ → ℚ) (e tol : ℚ)
    (hno : ∀ k, ¬(|f k - e| ≤ tol ∧ |f (k + 1) - e| ≤ tol ∧ |f (k + 2) - e| ≤ tol)) :
    ∀ (fuel c n : ℕ), c ≤ 2 → c ≤ n →
      (∀ j < c, |f (n - c + j) - e| ≤ tol) →
      settleRun f e tol fuel c n = none := by
  intro fuel
  induction fuel with
  | zero =>
    intro c n _ _ _
    rfl
  | succ fuel ih =>
    intro c n hc hcn hist
    rw [settleRun, if_neg (by omega)]
    by_cases htol : |f n - e| ≤ tol
    · rw [if_pos htol]
      have hc1 : c ≤ 1 := by
        by_contra hgt
        have hc2 : c = 2 := by omega
        subst hc2
        refine hno (n - 2) ⟨?_, ?_, ?_⟩
        · have h0 := hist 0 (by omega)
          have harith : n - 2 + 0 = n - 2 := by omega
          rw [harith] at h0
          exact h0
        · exact hist 1 (by omega)
        · have harith : n - 2 + 2 = n := by omega
          rw [harith]
          exact htol
      refine ih (c + 1) (n + 1) (by omega) (by omega) ?_
      intro j hj
      rcases Nat.lt_succ_iff_lt_or_eq.mp hj with hj | hj
      · have harith : n + 1 - (c + 1) + j = n - c + j := by omega
        rw [harith]
        exact hist j hj
      · have harith : n + 1 - (c + 1) + j = n := by omega
        rw [harith]
        exact htol
    · rw [if_neg htol]
      exact ih 0 (n + 1) (by omega) (by omega)
        (fun j hj => absurd hj (Nat.not_lt_zero j))

/-- Claim C9: `set_and_wait` returns only after the polled temperature
has been within tolerance of the target for 3 consecutive readings (an
out-of-tolerance reading resets the debounce count), and it has no
overall timeout: on a reading stream that never stays within tolerance
for 3 consecutive polls it never returns, however long it runs. -/
theorem C9_settle_wait :
    (∀ (f : ℕ → ℚ) (e tol : ℚ) (fuel m : ℕ),
      settleRun f e tol fuel 0 0 = some m →
      3 ≤ m ∧ ∀ j < 3, |f (m - 3 + j) - e| ≤ tol) ∧
    (∀ (f : ℕ → ℚ) (e tol : ℚ),
      (∀ k, ¬(|f k - e| ≤ tol ∧ |f (k + 1) - e| ≤ tol ∧ |f (k + 2) - e| ≤ tol)) →
      ∀ fuel, settleRun f e tol fuel 0 0 = none) :=
  ⟨fun f e tol fuel m h =>
      settleRun_returns f e tol fuel 0 0 m (by omega) (by omega)
        (fun j hj => absurd hj (Nat.not_lt_zero j)) h,
   fun f e tol hno fuel =>
      settleRun_diverges f e tol hno fuel 0 0 (by omega) (by omega)
        (fun j hj => absurd hj (Nat.not_lt_zero j))⟩

theorem C9_witness :
    (settleRun (fun _ => (0 : ℚ)) 0 1 4 0 0 = some 3 ∧
      3 ≤ 3 ∧ ∀ j < 3, |(fun _ => (0 : ℚ)) (3 - 3 + j) - 0| ≤ 1) ∧
    ((∀ k, ¬(|(fun i => if i % 2 = 0 then (0 : ℚ) else 5) k - 0| ≤ 1 ∧
             |(fun i => if i % 2 = 0 then (0 : ℚ) else 5) (k + 1) - 0| ≤ 1 ∧
             |(fun i => if i % 2 = 0 then (0 : ℚ) else 5) (k + 2) - 0| ≤ 1)) ∧
      settleRun (fun i => if i % 2 = 0 then (0 : ℚ) else 5) 0 1 5 0 0 = none) := by
  have hrun : settleRun (fun _ => (0 : ℚ)) 0 1 4 0 0 = some 3 := by
    norm_num [settleRun]
  have hno : ∀ k, ¬(|(fun i => if i % 2 = 0 then (0 : ℚ) else 5) k - 0| ≤ 1 ∧
      |(fun i => if i % 2 = 0 then (0 : ℚ) else 5) (k + 1) - 0| ≤ 1 ∧
      |(fun i => if i % 2 = 0 then (0 : ℚ) else 5) (k + 2) - 0| ≤ 1) := by
    rintro k ⟨h0, h1, h2⟩
    rcases Nat.mod_two_eq_zero_or_one k with hk | hk
    · have e1 : (k + 1) % 2 = 1 := by omega
      simp only [e1] at h1
      norm_num at h1
    · simp only [hk] at h0
      norm_num at h0
  exact ⟨⟨hrun, C9_settle_wait.1 (fun _ => (0 : ℚ)) 0 1 4 3 hrun⟩,
    ⟨hno, C9_settle_wait.2 (fun i => if i % 2 = 0 then (0 : ℚ) else 5) 0 1 hno 5⟩⟩

/-- Claim C1 as stated is false on the code: with a failing cos² fit
over the series with means `[1, 3]`, the `except` branch reports the
failure but the raw visibility `(3 - 1) / (3 + 1)` is not computed —
its computation sits inside the same `try`, after the fit. -/
theorem C1_counterexample :
    (cos2Report none [1, 3]).failureMessage = true ∧
    (cos2Report none [1, 3]).fittedVisibility = none ∧
    (cos2Report none [1, 3]).rawVisibility = none ∧
    (cos2Report none [1, 3]).rawVisibility ≠ some ((3 - 1) / (3 + 1)) := by
  refine ⟨rfl, rfl, rfl, ?_⟩
  intro h
  exact Option.noConfusion h

/-- Claim C1 (amended): on cos² fit failure the program reports the
failure message and produces neither a VisibilityResult nor the raw
visibility — the raw visibility is computed after the fit inside the
same `try` block, so it is only reported when the fit succeeds (and the
extrema of the means exist with a nonzero sum). -/
theorem C1_fit_failure_reporting :
    (∀ means : List ℚ, cos2Report none means = ⟨true, none, none⟩) ∧
    (∀ (A B k phi M m : ℚ) (means : List ℚ),
      means.max? = some M → means.min? = some m → M + m ≠ 0 →
      cos2Report (some (A, B, k, phi)) means =
        ⟨false, some (visibilityOf A B), some ((M - m) / (M + m))⟩) := by
  constructor
  · intro means
    rfl
  · intro A B k phi M m means hM hm hMm
    simp only [cos2Report, hM, hm]
    rw [if_neg hMm]

theorem C1_witness :
    cos2Report none [1, 3] = ⟨true, none, none⟩ ∧
    (([1, 3] : List ℚ).max? = some 3 ∧ ([1, 3] : List ℚ).min? = some 1 ∧
      (3 + 1 : ℚ) ≠ 0 ∧
      cos2Report (some (1, 4, 0, 0)) [1, 3] =
        ⟨false, some (visibilityOf 1 4), some ((3 - 1) / (3 + 1))⟩) :=
  ⟨C1_fit_failure_reporting.1 [1, 3],
   by decide, by decide, by norm_num,
   C1_fit_failure_reporting.2 1 4 0 0 3 1 [1, 3] (by decide) (by decide) (by norm_num)⟩

/-- Claim C2 is contradicted by the code (a bug relative to both the
spec and the code's own comment "skip any NaN measurements"): the mean
series handed to `curve_fit` keeps NaN-mean entries; on the loaded
means `[1, NaN, 2]` the fit input still contains the NaN entry and
differs from the NaN-filtered series the spec requires. -/
theorem C2_nan_not_excluded :
    (none : Option ℚ) ∈ fitMeansInput [some 1, none, some 2] ∧
    fitMeansInput [some 1, none, some 2] ≠ specFitMeansInput [some 1, none, some 2] := by
  decide

end DataElab
